import Mathlib

/-!
Shallow embedding of `src/main/utils/mavenUtils.ts` (class `MavenUtils`) of the
jfrog-vscode-extension repository, together with the verification of the frozen
claims about it.

Conventions of the embedding:
* JavaScript strings are Lean `String`s; character-level operations are written
  structurally over `String.data` so that every definition evaluates by kernel
  reduction.
* External collaborators (the GAV reader tool, the file search, the consuming
  tree-node classes) enter as parameters or as definitions explicitly marked
  `Modelled from the spec:`.
* Mutable JavaScript arrays and in-place tree mutation are translated to
  functional updates; an aliased node that is mutated in place becomes a
  rebuild of the unique tree position holding that node.
-/

/-! ## Character and string helpers

JavaScript string primitives used by `mavenUtils.ts`, written structurally
over `List Char`. -/

/-- Lower-casing of a character list (`String.prototype.toLowerCase`, ASCII range). -/
def lowerL (cs : List Char) : List Char := cs.map Char.toLower

/-- JS `String.prototype.split(sep)` with a single-character separator:
empty pieces are preserved, a trailing separator yields a trailing empty piece. -/
def splitOnCharAux (sep : Char) : List Char → List Char → List (List Char)
  | [], acc => [acc.reverse]
  | c :: cs, acc =>
      if c = sep then acc.reverse :: splitOnCharAux sep cs []
      else splitOnCharAux sep cs (c :: acc)

/-- Split a character list on a separator character. -/
def splitOnCharL (sep : Char) (cs : List Char) : List (List Char) :=
  splitOnCharAux sep cs []

/-- Decide whether `p` is a literal prefix of `l`. -/
def isPrefixL : List Char → List Char → Bool
  | [], _ => true
  | _ :: _, [] => false
  | a :: as, b :: bs => a == b && isPrefixL as bs

/-- First index at which `pat` occurs as a literal substring of the list
(JS `String.prototype.indexOf`, `none` for `-1`). -/
def subIdx (pat : List Char) : List Char → Option Nat
  | [] => if isPrefixL pat [] then some 0 else none
  | c :: cs => if isPrefixL pat (c :: cs) then some 0 else (subIdx pat cs).map (· + 1)

/-- JS `String.prototype.trim`: strip whitespace from both ends. -/
def trimL (cs : List Char) : List Char :=
  ((cs.dropWhile Char.isWhitespace).reverse.dropWhile Char.isWhitespace).reverse

/-- JS `Array.prototype.join(' ')`. -/
def joinSp : List String → String
  | [] => ""
  | [s] => s
  | s :: rest => s ++ " " ++ joinSp rest

/-- JS word character class `\w`: ASCII letters, digits and underscore. -/
def wordChar (c : Char) : Bool := c.isAlphanum || c == '_'

/-- `node:path.dirname` for POSIX-style paths (the part before the last slash,
`"."` when there is no slash, `"/"` when the result would be empty).  Only the
fact that the result is never the empty string matters to the claims. -/
def dirname (p : String) : String :=
  match (p.data.reverse.findIdx? (fun c => c = '/')) with
  | none => "."
  | some k =>
      let pre := p.data.take (p.data.length - 1 - k)
      if pre = [] then "/" else ⟨pre⟩

theorem dirname_ne_empty (p : String) : dirname p ≠ "" := by
  unfold dirname
  cases h : p.data.reverse.findIdx? (fun c => c = '/') with
  | none => simp
  | some k =>
      simp only
      split
      · simp
      · rename_i hpre
        intro hcontra
        apply hpre
        have : (⟨p.data.take (p.data.length - 1 - k)⟩ : String).data = ("" : String).data := by
          rw [hcontra]
        simpa using this

/-! ## PomTree and the prototype tree builder

The `PomTree` class itself lives in `pomTree.ts`, which is not under `src/`;
only its uses in `mavenUtils.ts` are visible.  The node shape and the deep
search are therefore modelled from the spec. -/

/-- Modelled from the spec: the `PomTree` class (`pomTree.ts`, not under
`src/`), the spec's *PrototypeNode*: a module identity `pomGav`, the directory
`pomPath` of its descriptor (empty for a placeholder), its `parentGav` (empty
when no parent is known) and an ordered list of children.  `new PomTree(gav)`
is `PomTree.mk gav "" "" []`. -/
inductive PomTree : Type where
  | mk (pomGav : String) (pomPath : String) (parentGav : String) (children : List PomTree)

instance : Inhabited PomTree := ⟨.mk "" "" "" []⟩

/-- The module identity of a node. -/
def PomTree.pomGav : PomTree → String
  | .mk g _ _ _ => g

/-- The descriptor directory of a node (empty for a placeholder). -/
def PomTree.pomPath : PomTree → String
  | .mk _ p _ _ => p

/-- The parent identity recorded on a node. -/
def PomTree.parentGav : PomTree → String
  | .mk _ _ pg _ => pg

/-- The children of a node. -/
def PomTree.children : PomTree → List PomTree
  | .mk _ _ _ ch => ch

mutual
/-- Number of nodes of a tree (termination measure for the sweep loop). -/
def numNodes : PomTree → Nat
  | .mk _ _ _ ch => 1 + numNodesList ch
/-- Number of nodes of a forest. -/
def numNodesList : List PomTree → Nat
  | [] => 0
  | t :: ts => numNodes t + numNodesList ts
end

mutual
/-- Does some node of the tree satisfy `p`? (deep, preorder). -/
def anyNode (p : PomTree → Bool) : PomTree → Bool
  | .mk g pp pg ch => p (.mk g pp pg ch) || anyNodeList p ch
/-- Does some node of some tree of the forest satisfy `p`? -/
def anyNodeList (p : PomTree → Bool) : List PomTree → Bool
  | [] => false
  | t :: ts => anyNode p t || anyNodeList p ts
end

mutual
/-- Do all nodes of the tree satisfy `p`? (deep). -/
def allNodes (p : PomTree → Bool) : PomTree → Bool
  | .mk g pp pg ch => p (.mk g pp pg ch) && allNodesList p ch
/-- Do all nodes of all trees of the forest satisfy `p`? -/
def allNodesList (p : PomTree → Bool) : List PomTree → Bool
  | [] => true
  | t :: ts => allNodes p t && allNodesList p ts
end

mutual
/-- Number of nodes of the tree whose `pomGav` equals `gav` (deep). -/
def countGav (gav : String) : PomTree → Nat
  | .mk g _ _ ch => (if g = gav then 1 else 0) + countGavList gav ch
/-- Number of nodes of the forest whose `pomGav` equals `gav` (deep). -/
def countGavList (gav : String) : List PomTree → Nat
  | [] => 0
  | t :: ts => countGav gav t + countGavList gav ts
end

mutual
/-- The identities of all nodes of the tree, in preorder. -/
def gavsOf : PomTree → List String
  | .mk g _ _ ch => g :: gavsOfList ch
/-- The identities of all nodes of the forest, in preorder. -/
def gavsOfList : List PomTree → List String
  | [] => []
  | t :: ts => gavsOf t ++ gavsOfList ts
end

mutual
/-- Modelled from the spec: `PomTree.deepSearch` (recursive, depth-first
search of a tree for the first node whose identity equals `gav`) combined with
`PomTree.addChild` (append to the `children` array).  `deepFindAdd` returns
the tree with `child` appended to the children of the first matching node, or
`none` when no node matches — the functional rendering of
`getPrototypeNode(...)?.addChild(child)` aliasing mutation. -/
def deepFindAdd (gav : String) (child : PomTree) : PomTree → Option PomTree
  | PomTree.mk g p pg ch =>
      if g = gav then some (PomTree.mk g p pg (ch ++ [child]))
      else
        match deepFindAddList gav child ch with
        | some ch2 => some (PomTree.mk g p pg ch2)
        | none => none
/-- `deepFindAdd` over a forest: the loop of `MavenUtils.getPrototypeNode`
(first tree containing a match wins). -/
def deepFindAddList (gav : String) (child : PomTree) : List PomTree → Option (List PomTree)
  | [] => none
  | t :: ts =>
      match deepFindAdd gav child t with
      | some t2 => some (t2 :: ts)
      | none =>
          match deepFindAddList gav child ts with
          | some ts2 => some (t :: ts2)
          | none => none
end

/-- `MavenUtils.searchPomGav`: `findIndex` over the top-level array only
(`none` models the JS result `-1`). -/
def searchPomGav (pomTreeArray : List PomTree) (pomGav : String) : Option Nat :=
  pomTreeArray.findIdx? (fun pomTree => pomTree.pomGav == pomGav)

/-- `MavenUtils.addPrototypeNode`: if the node has a parent identity, attach it
under the first deep match of that identity anywhere in the forest; otherwise
synthesize a placeholder root carrying the parent identity; a node with no
parent identity becomes a root. -/
def addPrototypeNode (pomArray : List PomTree) (node : PomTree) : List PomTree :=
  if node.parentGav ≠ "" then
    match deepFindAddList node.parentGav node pomArray with
    | some arr2 => arr2
    | none => pomArray ++ [PomTree.mk node.parentGav "" "" [node]]
  else pomArray ++ [node]

/-- One iteration of the `forEach` body of `MavenUtils.buildPrototypePomTree`:
resolve the GAV pair of the descriptor (`resolve` stands for
`MavenUtils.getPomDetails` with the shared cache), search the roots for the
module identity, splice and reuse on a hit or create a fresh node on a miss,
overwrite `pomPath`/`parentGav`, and re-insert via `addPrototypeNode`. -/
def buildStep (resolve : String → String × String) (forest : List PomTree) (pom : String) :
    List PomTree :=
  let pomGav := (resolve pom).1
  let parentGav := (resolve pom).2
  if pomGav ≠ "" then
    match searchPomGav forest pomGav with
    | some index =>
        let currNode := forest.getD index default
        addPrototypeNode (forest.eraseIdx index)
          (PomTree.mk pomGav (dirname pom) parentGav currNode.children)
    | none =>
        addPrototypeNode forest (PomTree.mk pomGav (dirname pom) parentGav [])
  else forest

theorem numNodes_pos (t : PomTree) : 1 ≤ numNodes t := by
  cases t with
  | mk g p pg ch => simp [numNodes]

theorem numNodesList_append (a b : List PomTree) :
    numNodesList (a ++ b) = numNodesList a + numNodesList b := by
  induction a with
  | nil => simp [numNodesList]
  | cons t ts ih => simp only [List.cons_append, numNodesList, List.append_eq, ih]; omega

theorem numNodesList_eraseIdx_add (l : List PomTree) (i : Nat) (h : i < l.length) :
    numNodesList (l.eraseIdx i ++ (l.getD i default).children) + 1 ≤ numNodesList l := by
  induction l generalizing i with
  | nil => simp at h
  | cons t ts ih =>
    cases i with
    | zero =>
      cases t with
      | mk g p pg ch =>
        simp only [List.eraseIdx, List.getD_cons_zero, numNodesList, PomTree.children, numNodes,
          numNodesList_append]
        omega
    | succ j =>
      have hj : j < ts.length := by simpa using h
      have := ih j hj
      simp only [List.eraseIdx, numNodesList, List.getD_cons_succ, List.cons_append,
        List.append_eq, numNodesList_append] at *
      have h1 := numNodes_pos t
      omega

/-- The trailing cleanup loop of `MavenUtils.buildPrototypePomTree`
(`for (let i = 0; i < prototypeTree.length; i++) if (!prototypeTree[i].pomPath)
{ splice; push children }`), translated index-faithfully: after a splice the
index still advances, exactly as in the source. -/
def sweep (forest : List PomTree) (i : Nat) : List PomTree :=
  if h : i < forest.length then
    if (forest.getD i default).pomPath = "" then
      sweep (forest.eraseIdx i ++ (forest.getD i default).children) (i + 1)
    else
      sweep forest (i + 1)
  else forest
termination_by (numNodesList forest, forest.length - i)
decreasing_by
  · refine Prod.Lex.left _ _ ?_
    have := numNodesList_eraseIdx_add forest i h
    omega
  · refine Prod.Lex.right _ ?_
    omega

/-- Stable insertion into a list sorted by ascending string length. -/
def insertByLen (x : String) : List String → List String
  | [] => [x]
  | y :: ys => if y.length < x.length then y :: insertByLen x ys else x :: y :: ys

/-- The stable ascending-by-`fsPath.length` sort performed at the top of
`buildPrototypePomTree` (`pomArray.sort((a, b) => a.fsPath.length - b.fsPath.length)`). -/
def sortByLen : List String → List String
  | [] => []
  | x :: xs => insertByLen x (sortByLen xs)

/-- The forest state after the `forEach` pass of `buildPrototypePomTree`,
before the rootless-root cleanup. -/
def preSweep (resolve : String → String × String) (pomArray : List String) : List PomTree :=
  (sortByLen pomArray).foldl (buildStep resolve) []

/-- `MavenUtils.buildPrototypePomTree`, with the GAV resolution
(`getPomDetails` plus its cache and the reader installation) abstracted into
the `resolve` parameter. -/
def buildPrototypePomTree (resolve : String → String × String) (pomArray : List String) :
    List PomTree :=
  sweep (preSweep resolve pomArray) 0

/-- Concrete resolver exercising a duplicated module GAV: paths `a` and `ccc`
both resolve to module `g:a:1` with parent `g:p:1`; path `bb` is the parent. -/
def resolveDupA : String → String × String := fun p =>
  if p = "a" then ("g:a:1", "g:p:1")
  else if p = "bb" then ("g:p:1", "")
  else if p = "ccc" then ("g:a:1", "g:p:1")
  else ("", "")

/-- Concrete resolver for the forest-validity counterexample: paths `d` and
`fff` both resolve to module `g:x:1` with parent `g:q:1`; path `ee` is the parent. -/
def resolveDupB : String → String × String := fun p =>
  if p = "d" then ("g:x:1", "g:q:1")
  else if p = "ee" then ("g:q:1", "")
  else if p = "fff" then ("g:x:1", "g:q:1")
  else ("", "")

/-- Concrete resolver with two descriptors whose parent identities never occur
in the input (two adjacent rootless roots for the cleanup loop). -/
def resolveTwoOrphans : String → String × String := fun p =>
  if p = "m" then ("g:c1:1", "g:m1:1")
  else if p = "nn" then ("g:c2:1", "g:m2:1")
  else ("", "")

/-- Concrete single-descriptor resolver used by witnesses: `a` resolves to
`g:a:1` whose parent `g:p:1` is never present. -/
def resolveOneOrphan : String → String × String := fun p =>
  if p = "a" then ("g:a:1", "g:p:1") else ("", "")

/-- Does a node record a non-empty descriptor directory? -/
def hasPathB (n : PomTree) : Bool := !(n.pomPath == "")

/-! ## General lemmas about the tree builder -/


theorem allNodesList_append (p : PomTree → Bool) (a b : List PomTree) :
    allNodesList p (a ++ b) = (allNodesList p a && allNodesList p b) := by
  induction a with
  | nil => simp [allNodesList]
  | cons t ts ih =>
      simp only [List.cons_append, allNodesList, List.append_eq, ih, Bool.and_assoc]

mutual
theorem deepFindAdd_all (P : PomTree → Bool)
    (hP : ∀ gv pp pg ch ch2, P (PomTree.mk gv pp pg ch) = P (PomTree.mk gv pp pg ch2))
    (g : String) (c : PomTree) :
    ∀ (t t2 : PomTree), deepFindAdd g c t = some t2 →
      allNodes P t = true → allNodes P c = true → allNodes P t2 = true
  | PomTree.mk g0 pp pg ch, t2, heq, hall, hc => by
      rw [deepFindAdd] at heq
      simp only [allNodes, Bool.and_eq_true] at hall
      by_cases hg : g0 = g
      · rw [if_pos hg] at heq
        cases heq
        simp only [allNodes, Bool.and_eq_true]
        refine ⟨?_, ?_⟩
        · rw [hP g0 pp pg (ch ++ [c]) ch]; exact hall.1
        · rw [allNodesList_append]
          simp only [allNodesList, Bool.and_eq_true]
          exact ⟨hall.2, hc, trivial⟩
      · rw [if_neg hg] at heq
        cases hch : deepFindAddList g c ch with
        | none => rw [hch] at heq; cases heq
        | some ch2 =>
            rw [hch] at heq
            cases heq
            simp only [allNodes, Bool.and_eq_true]
            refine ⟨?_, deepFindAddList_all P hP g c ch ch2 hch hall.2 hc⟩
            rw [hP g0 pp pg ch2 ch]; exact hall.1
theorem deepFindAddList_all (P : PomTree → Bool)
    (hP : ∀ gv pp pg ch ch2, P (PomTree.mk gv pp pg ch) = P (PomTree.mk gv pp pg ch2))
    (g : String) (c : PomTree) :
    ∀ (l l2 : List PomTree), deepFindAddList g c l = some l2 →
      allNodesList P l = true → allNodes P c = true → allNodesList P l2 = true
  | [], l2, heq, _, _ => by rw [deepFindAddList] at heq; cases heq
  | t :: ts, l2, heq, hall, hc => by
      rw [deepFindAddList] at heq
      simp only [allNodesList, Bool.and_eq_true] at hall
      cases ht : deepFindAdd g c t with
      | some t2 =>
          rw [ht] at heq
          cases heq
          simp only [allNodesList, Bool.and_eq_true]
          exact ⟨deepFindAdd_all P hP g c t t2 ht hall.1 hc, hall.2⟩
      | none =>
          rw [ht] at heq
          cases hts : deepFindAddList g c ts with
          | none => rw [hts] at heq; cases heq
          | some ts2 =>
              rw [hts] at heq
              cases heq
              simp only [allNodesList, Bool.and_eq_true]
              exact ⟨hall.1, deepFindAddList_all P hP g c ts ts2 hts hall.2 hc⟩
end

theorem sweep_done (forest : List PomTree) (i : Nat) (h : ¬ i < forest.length) :
    sweep forest i = forest := by
  rw [sweep.eq_def]
  simp [h]

theorem sweep_step_keep (forest : List PomTree) (i : Nat) (h : i < forest.length)
    (hp : ¬ (forest.getD i default).pomPath = "") :
    sweep forest i = sweep forest (i + 1) := by
  rw [sweep.eq_def]
  rw [List.getD_eq_getElem _ _ h] at hp
  simp [h, hp]

theorem sweep_step_splice (forest : List PomTree) (i : Nat) (h : i < forest.length)
    (hp : (forest.getD i default).pomPath = "") :
    sweep forest i = sweep (forest.eraseIdx i ++ (forest.getD i default).children) (i + 1) := by
  rw [sweep.eq_def]
  rw [List.getD_eq_getElem _ _ h] at hp
  simp [h, hp, List.getD_eq_getElem _ _ h]

theorem findIdx?_isSome_of_mem {α : Type} (p : α → Bool) {l : List α} {x : α}
    (hx : x ∈ l) (hp : p x = true) : (l.findIdx? p).isSome = true := by
  cases h : l.findIdx? p with
  | some i => rfl
  | none =>
      have := List.findIdx?_eq_none_iff.mp h x hx
      rw [hp] at this
      cases this

theorem anyNode_eq (Q : PomTree → Bool) (t : PomTree) :
    anyNode Q t = (Q t || anyNodeList Q t.children) := by
  cases t
  rfl

theorem anyNodeList_exists (Q : PomTree → Bool) :
    ∀ l : List PomTree, anyNodeList Q l = true → ∃ t ∈ l, anyNode Q t = true := by
  intro l
  induction l with
  | nil => intro h; cases h
  | cons t ts ih =>
      intro h
      rw [anyNodeList, Bool.or_eq_true] at h
      cases h with
      | inl h => exact ⟨t, List.mem_cons_self t ts, h⟩
      | inr h =>
          obtain ⟨u, hu, hanu⟩ := ih h
          exact ⟨u, List.mem_cons_of_mem t hu, hanu⟩

mutual
theorem anyNode_conflict (Q P : PomTree → Bool) :
    ∀ t : PomTree, anyNode Q t = true → allNodes P t = true →
      ∃ n, Q n = true ∧ P n = true
  | PomTree.mk g pp pg ch, hq, hp => by
      rw [anyNode, Bool.or_eq_true] at hq
      rw [allNodes, Bool.and_eq_true] at hp
      cases hq with
      | inl h => exact ⟨PomTree.mk g pp pg ch, h, hp.1⟩
      | inr h => exact anyNodeList_conflict Q P ch h hp.2
theorem anyNodeList_conflict (Q P : PomTree → Bool) :
    ∀ l : List PomTree, anyNodeList Q l = true → allNodesList P l = true →
      ∃ n, Q n = true ∧ P n = true
  | t :: ts, hq, hp => by
      rw [anyNodeList, Bool.or_eq_true] at hq
      rw [allNodesList, Bool.and_eq_true] at hp
      cases hq with
      | inl h => exact anyNode_conflict Q P t h hp.1
      | inr h => exact anyNodeList_conflict Q P ts h hp.2
end

/-- Invariant of the builder loop: below every forest root, every (strict)
descendant carries a non-empty descriptor directory — equivalently, every
placeholder (empty `pomPath`) can only sit at a root position. -/
def rootedPaths (f : List PomTree) : Prop :=
  ∀ t ∈ f, allNodesList hasPathB t.children = true

theorem hasPathB_stable (gv pp pg : String) (ch ch2 : List PomTree) :
    hasPathB (PomTree.mk gv pp pg ch) = hasPathB (PomTree.mk gv pp pg ch2) := rfl

theorem allNodes_children (P : PomTree → Bool) (t : PomTree) (h : allNodes P t = true) :
    allNodesList P t.children = true := by
  cases t with
  | mk g pp pg ch =>
      rw [allNodes, Bool.and_eq_true] at h
      rw [PomTree.children]
      exact h.2

theorem deepFindAdd_children (g : String) (c t t2 : PomTree)
    (h : deepFindAdd g c t = some t2)
    (hch : allNodesList hasPathB t.children = true)
    (hc : allNodes hasPathB c = true) :
    allNodesList hasPathB t2.children = true := by
  cases t with
  | mk g0 pp pg ch =>
      rw [deepFindAdd] at h
      rw [PomTree.children] at hch
      by_cases hg : g0 = g
      · rw [if_pos hg] at h
        cases h
        rw [PomTree.children, allNodesList_append]
        simp only [allNodesList, Bool.and_eq_true]
        exact ⟨hch, hc, trivial⟩
      · rw [if_neg hg] at h
        cases hdl : deepFindAddList g c ch with
        | none => rw [hdl] at h; cases h
        | some ch2 =>
            rw [hdl] at h
            cases h
            rw [PomTree.children]
            exact deepFindAddList_all hasPathB hasPathB_stable g c ch ch2 hdl hch hc

theorem deepFindAddList_rooted (g : String) (c : PomTree) :
    ∀ (l l2 : List PomTree), deepFindAddList g c l = some l2 →
      rootedPaths l → allNodes hasPathB c = true → rootedPaths l2 := by
  intro l
  induction l with
  | nil => intro l2 h; rw [deepFindAddList] at h; cases h
  | cons t ts ih =>
      intro l2 h hl hc
      rw [deepFindAddList] at h
      cases ht : deepFindAdd g c t with
      | some t2 =>
          rw [ht] at h
          cases h
          intro u hu
          rcases List.mem_cons.mp hu with hu | hu
          · exact hu.symm ▸ deepFindAdd_children g c t t2 ht (hl t (List.mem_cons_self t ts)) hc
          · exact hl u (List.mem_cons_of_mem t hu)
      | none =>
          rw [ht] at h
          cases hts : deepFindAddList g c ts with
          | none => rw [hts] at h; cases h
          | some ts2 =>
              rw [hts] at h
              cases h
              intro u hu
              rcases List.mem_cons.mp hu with hu | hu
              · exact hu.symm ▸ hl t (List.mem_cons_self t ts)
              · exact ih ts2 hts (fun v hv => hl v (List.mem_cons_of_mem t hv)) hc u hu

theorem addPrototypeNode_rooted (f : List PomTree) (node : PomTree)
    (hf : rootedPaths f) (hn : allNodes hasPathB node = true) :
    rootedPaths (addPrototypeNode f node) := by
  rw [addPrototypeNode]
  by_cases hpg : node.parentGav ≠ ""
  · rw [if_pos hpg]
    cases hdl : deepFindAddList node.parentGav node f with
    | some arr2 => exact deepFindAddList_rooted node.parentGav node f arr2 hdl hf hn
    | none =>
        intro u hu
        rcases List.mem_append.mp hu with hu | hu
        · exact hf u hu
        · rcases List.mem_singleton.mp hu with rfl
          rw [PomTree.children]
          simp only [allNodesList, Bool.and_eq_true]
          exact ⟨hn, trivial⟩
  · rw [if_neg hpg]
    intro u hu
    rcases List.mem_append.mp hu with hu | hu
    · exact hf u hu
    · exact (List.mem_singleton.mp hu).symm ▸ allNodes_children hasPathB node hn

theorem hasPathB_mk (gv pp pg : String) (ch : List PomTree) (hpp : pp ≠ "") :
    hasPathB (PomTree.mk gv pp pg ch) = true := by
  rw [hasPathB, PomTree.pomPath]
  simp [hpp]

theorem buildStep_rooted (resolve : String → String × String) (pom : String)
    (f : List PomTree) (hf : rootedPaths f) :
    rootedPaths (buildStep resolve f pom) := by
  rw [buildStep]
  by_cases hg : (resolve pom).1 ≠ ""
  · rw [if_pos hg]
    cases hidx : searchPomGav f (resolve pom).1 with
    | some index =>
        simp only
        have hlen : index < f.length := by
          rw [searchPomGav] at hidx
          exact (List.findIdx?_eq_some_iff_findIdx_eq.mp hidx).1
        have hmem : f.getD index default ∈ f := by
          rw [List.getD_eq_getElem _ _ hlen]
          exact List.getElem_mem hlen
        have hch := hf _ hmem
        refine addPrototypeNode_rooted _ _ ?_ ?_
        · exact fun u hu => hf u (List.eraseIdx_subset f index hu)
        · rw [allNodes, Bool.and_eq_true]
          exact ⟨hasPathB_mk _ _ _ _ (dirname_ne_empty pom), hch⟩
    | none =>
        simp only
        refine addPrototypeNode_rooted _ _ hf ?_
        rw [allNodes, Bool.and_eq_true]
        exact ⟨hasPathB_mk _ _ _ _ (dirname_ne_empty pom), rfl⟩
  · rw [if_neg hg]
    exact hf

theorem preSweep_rooted (resolve : String → String × String) (pomArray : List String) :
    rootedPaths (preSweep resolve pomArray) := by
  rw [preSweep]
  generalize sortByLen pomArray = l
  have base : rootedPaths ([] : List PomTree) := fun t ht => absurd ht (List.not_mem_nil t)
  revert base
  generalize ([] : List PomTree) = f
  induction l generalizing f with
  | nil => intro h; exact h
  | cons p ps ih =>
      intro hfp
      rw [List.foldl_cons]
      exact ih _ (buildStep_rooted resolve p f hfp)

/-- C1 (counterexample): the step-2 search of `buildPrototypePomTree` does
*not* examine the entire forest.  With descriptors `a` and `ccc` both
resolving to module `g:a:1` (parent `g:p:1`) and `bb` resolving to the parent
`g:p:1`, the node for `g:a:1` sits as a child of `g:p:1` when `ccc` is
processed; `searchPomGav` — a `findIndex` over the root array — misses it
(returns `none` on the intermediate forest even though the identity is
present), and the final forest carries two distinct nodes with identity
`g:a:1` instead of reusing the existing one. -/
theorem c1_counterexample :
    searchPomGav [PomTree.mk "g:p:1" "." "" [PomTree.mk "g:a:1" "." "g:p:1" []]] "g:a:1" = none
    ∧ anyNodeList (fun n => n.pomGav == "g:a:1")
        [PomTree.mk "g:p:1" "." "" [PomTree.mk "g:a:1" "." "g:p:1" []]] = true
    ∧ countGavList "g:a:1" (buildPrototypePomTree resolveDupA ["a", "bb", "ccc"]) = 2 := by
  refine ⟨by decide, by decide, ?_⟩
  rw [buildPrototypePomTree]
  rw [show preSweep resolveDupA ["a", "bb", "ccc"] =
    [PomTree.mk "g:p:1" "." "" [PomTree.mk "g:a:1" "." "g:p:1" [],
      PomTree.mk "g:a:1" "." "g:p:1" []]] from rfl]
  rw [sweep_step_keep _ _ (by norm_num) (by decide)]
  rw [sweep_done _ _ (by norm_num)]
  decide

/-- C1 (amended): the step-2 search examines only the forest roots, and that
root search still finds every identity that occurs anywhere on a node with an
empty descriptor directory — placeholders are created as roots and stay at a
root position until their own descriptor is processed, which is the invariant
`rootedPaths` establishes for every reachable pre-sweep forest. -/
theorem c1_placeholder_found_at_roots (resolve : String → String × String)
    (pomArray : List String) (g : String)
    (h : anyNodeList (fun n => n.pomGav == g && n.pomPath == "")
        (preSweep resolve pomArray) = true) :
    (searchPomGav (preSweep resolve pomArray) g).isSome = true := by
  obtain ⟨t, htF, hant⟩ := anyNodeList_exists _ _ h
  rw [anyNode_eq, Bool.or_eq_true] at hant
  cases hant with
  | inl hq =>
      rw [Bool.and_eq_true] at hq
      exact findIdx?_isSome_of_mem _ htF hq.1
  | inr hdeep =>
      have hall := preSweep_rooted resolve pomArray t htF
      obtain ⟨n, hn, hhp⟩ := anyNodeList_conflict _ _ _ hdeep hall
      rw [Bool.and_eq_true] at hn
      rw [hasPathB] at hhp
      rw [hn.2] at hhp
      cases hhp

/-- C1 (witness): with the single descriptor `a` resolving to `g:a:1` whose
parent `g:p:1` never occurs, the pre-sweep forest holds the placeholder
`g:p:1` (empty directory) as a root, and the root-only search finds it. -/
theorem c1_witness :
    (searchPomGav (preSweep resolveOneOrphan ["a"]) "g:p:1").isSome = true :=
  c1_placeholder_found_at_roots resolveOneOrphan ["a"] "g:p:1" (by decide)

theorem map_eraseIdx_comm {α β : Type} (f : α → β) :
    ∀ (l : List α) (i : Nat), List.map f (l.eraseIdx i) = (List.map f l).eraseIdx i := by
  intro l
  induction l with
  | nil => intro i; simp
  | cons x xs ih =>
      intro i
      cases i with
      | zero => simp [List.eraseIdx]
      | succ j => simp [List.eraseIdx, ih j]

theorem nodup_getElem_not_mem_eraseIdx {α : Type} (l : List α) (i : Nat)
    (h : i < l.length) (hn : l.Nodup) : l[i] ∉ l.eraseIdx i := by
  have hsplit : l = List.take i l ++ l[i] :: List.drop (i + 1) l := by
    rw [List.getElem_cons_drop l i h, List.take_append_drop]
  rw [List.eraseIdx_eq_take_drop_succ]
  intro hmem
  have hn2 := hsplit ▸ hn
  rw [List.nodup_append] at hn2
  obtain ⟨hta, hco, hdisj⟩ := hn2
  rw [List.nodup_cons] at hco
  rcases List.mem_append.mp hmem with hmem | hmem
  · exact hdisj hmem (List.mem_cons_self _ _)
  · exact hco.1 hmem

theorem searchPomGav_getD (f : List PomTree) (g : String) (i : Nat)
    (h : searchPomGav f g = some i) :
    i < f.length ∧ (f.getD i default).pomGav = g := by
  rw [searchPomGav] at h
  obtain ⟨hlen, hidx⟩ := List.findIdx?_eq_some_iff_findIdx_eq.mp h
  refine ⟨hlen, ?_⟩
  have hfl : List.findIdx (fun pomTree => pomTree.pomGav == g) f < f.length := by
    rw [hidx]; exact hlen
  have := @List.findIdx_getElem _ (fun pomTree => pomTree.pomGav == g) f hfl
  rw [List.getD_eq_getElem _ _ hlen]
  simp only [hidx] at this
  exact eq_of_beq this

theorem searchPomGav_none (f : List PomTree) (g : String)
    (h : searchPomGav f g = none) : ∀ t ∈ f, t.pomGav ≠ g := by
  rw [searchPomGav] at h
  intro t ht
  have := List.findIdx?_eq_none_iff.mp h t ht
  simpa using this

/-- The flat-input invariant: with no parent identities in play every node of
the forest is a processed leaf, and root identities are pairwise distinct. -/
def flatInv (f : List PomTree) : Prop :=
  (∀ t ∈ f, t.children = [] ∧ t.pomPath ≠ "") ∧ (f.map PomTree.pomGav).Nodup

theorem buildStep_flat (resolve : String → String × String) (pom : String)
    (hres : (resolve pom).2 = "") (f : List PomTree) (hf : flatInv f) :
    flatInv (buildStep resolve f pom) := by
  rw [buildStep]
  by_cases hg : (resolve pom).1 ≠ ""
  · rw [if_pos hg]
    cases hidx : searchPomGav f (resolve pom).1 with
    | some index =>
        simp only
        obtain ⟨hlen, hgav⟩ := searchPomGav_getD f _ index hidx
        have hmem : f.getD index default ∈ f := by
          rw [List.getD_eq_getElem _ _ hlen]
          exact List.getElem_mem hlen
        obtain ⟨hcc, _⟩ := hf.1 _ hmem
        rw [addPrototypeNode]
        rw [if_neg (by rw [PomTree.parentGav, hres]; exact fun hcon => hcon rfl)]
        constructor
        · intro t ht
          rcases List.mem_append.mp ht with ht | ht
          · exact hf.1 t (List.eraseIdx_subset f index ht)
          · rcases List.mem_singleton.mp ht with rfl
            rw [PomTree.children, PomTree.pomPath]
            exact ⟨hcc, dirname_ne_empty pom⟩
        · rw [List.map_append]
          rw [List.nodup_append]
          refine ⟨?_, ?_, ?_⟩
          · exact ((List.eraseIdx_sublist f index).map PomTree.pomGav).nodup hf.2
          · simp
          · intro x hx
            simp only [List.map_cons, List.map_nil, List.mem_singleton, PomTree.pomGav]
            intro hxg
            rw [map_eraseIdx_comm] at hx
            have hgl : index < (f.map PomTree.pomGav).length := by
              rw [List.length_map]; exact hlen
            have hnotin := nodup_getElem_not_mem_eraseIdx _ index hgl hf.2
            have hval : (f.map PomTree.pomGav)[index] = (resolve pom).1 := by
              rw [List.getElem_map]
              rw [List.getD_eq_getElem _ _ hlen] at hgav
              exact hgav
            rw [hval] at hnotin
            rw [hxg] at hx
            exact hnotin hx
    | none =>
        simp only
        rw [addPrototypeNode]
        rw [if_neg (by rw [PomTree.parentGav, hres]; exact fun hcon => hcon rfl)]
        constructor
        · intro t ht
          rcases List.mem_append.mp ht with ht | ht
          · exact hf.1 t ht
          · rcases List.mem_singleton.mp ht with rfl
            rw [PomTree.children, PomTree.pomPath]
            exact ⟨rfl, dirname_ne_empty pom⟩
        · rw [List.map_append]
          rw [List.nodup_append]
          refine ⟨hf.2, by simp, ?_⟩
          intro x hx
          simp only [List.map_cons, List.map_nil, List.mem_singleton, PomTree.pomGav]
          intro hxg
          obtain ⟨t, ht, hteq⟩ := List.mem_map.mp hx
          exact searchPomGav_none f _ hidx t ht (by rw [hteq, hxg])
  · rw [if_neg hg]
    exact hf

theorem preSweep_flat (resolve : String → String × String) (pomArray : List String)
    (hres : ∀ p, (resolve p).2 = "") : flatInv (preSweep resolve pomArray) := by
  rw [preSweep]
  generalize sortByLen pomArray = l
  have base : flatInv ([] : List PomTree) :=
    ⟨fun t ht => absurd ht (List.not_mem_nil t), List.nodup_nil⟩
  revert base
  generalize ([] : List PomTree) = f
  induction l generalizing f with
  | nil => intro h; exact h
  | cons p ps ih =>
      intro hfp
      rw [List.foldl_cons]
      exact ih _ (buildStep_flat resolve p (hres p) f hfp)

theorem sweep_eq_self (f : List PomTree) (h : ∀ t ∈ f, ¬ t.pomPath = "") :
    ∀ (k i : Nat), f.length - i ≤ k → sweep f i = f := by
  intro k
  induction k with
  | zero =>
      intro i hi
      exact sweep_done f i (by omega)
  | succ k ih =>
      intro i hi
      by_cases hlt : i < f.length
      · rw [sweep_step_keep f i hlt ?hp]
        case hp =>
          apply h
          rw [List.getD_eq_getElem _ _ hlt]
          exact List.getElem_mem hlt
        exact ih (i + 1) (by omega)
      · exact sweep_done f i hlt

theorem gavsOfList_leaves (f : List PomTree) (h : ∀ t ∈ f, t.children = []) :
    gavsOfList f = f.map PomTree.pomGav := by
  induction f with
  | nil => rfl
  | cons t ts ih =>
      rw [gavsOfList, List.map_cons]
      have hch := h t (List.mem_cons_self t ts)
      cases t with
      | mk g pp pg ch =>
          rw [PomTree.children] at hch
          subst hch
          rw [gavsOf, PomTree.pomGav]
          rw [ih (fun u hu => h u (List.mem_cons_of_mem _ hu))]
          rfl

/-- Concrete flat resolver for the C2 witness: two descriptors, no parents. -/
def resolveFlatW : String → String × String := fun p =>
  if p = "a" then ("g:a:1", "")
  else if p = "bb" then ("g:b:1", "")
  else ("", "")

/-- C2 (counterexample): `buildPrototypePomTree` output is not always a valid
forest.  With `d` and `fff` both resolving to module `g:x:1` (parent `g:q:1`)
and `ee` resolving to `g:q:1`, the identity `g:x:1` ends on two distinct nodes
of the returned forest. -/
theorem c2_counterexample :
    ¬ (gavsOfList (buildPrototypePomTree resolveDupB ["d", "ee", "fff"])).Nodup := by
  rw [buildPrototypePomTree]
  rw [show preSweep resolveDupB ["d", "ee", "fff"] =
    [PomTree.mk "g:q:1" "." "" [PomTree.mk "g:x:1" "." "g:q:1" [],
      PomTree.mk "g:x:1" "." "g:q:1" []]] from rfl]
  rw [sweep_step_keep _ _ (by norm_num) (by decide)]
  rw [sweep_done _ _ (by norm_num)]
  decide

/-- C2 (amended): the returned forest is a list of finite trees by
construction (so no node has two parents and none is its own ancestor), but
identity uniqueness fails in general; it does hold whenever the resolver
reports no parent identities at all, in which case the forest is a flat list
of leaves with pairwise-distinct identities. -/
theorem c2_flat_unique (resolve : String → String × String) (pomArray : List String)
    (hres : ∀ p, (resolve p).2 = "") :
    (gavsOfList (buildPrototypePomTree resolve pomArray)).Nodup
    ∧ ∀ t ∈ buildPrototypePomTree resolve pomArray, t.children = [] := by
  have hflat := preSweep_flat resolve pomArray hres
  have hsweep : buildPrototypePomTree resolve pomArray = preSweep resolve pomArray := by
    rw [buildPrototypePomTree]
    exact sweep_eq_self _ (fun t ht => (hflat.1 t ht).2) (preSweep resolve pomArray).length 0
      (by omega)
  rw [hsweep]
  refine ⟨?_, fun t ht => (hflat.1 t ht).1⟩
  rw [gavsOfList_leaves _ (fun t ht => (hflat.1 t ht).1)]
  exact hflat.2

/-- C2 (witness): the flat two-descriptor input yields a duplicate-free forest
of leaves. -/
theorem c2_witness :
    (gavsOfList (buildPrototypePomTree resolveFlatW ["a", "bb"])).Nodup
    ∧ ∀ t ∈ buildPrototypePomTree resolveFlatW ["a", "bb"], t.children = [] :=
  c2_flat_unique resolveFlatW ["a", "bb"]
    (by
      intro p
      by_cases h1 : p = "a" <;> by_cases h2 : p = "bb" <;>
        simp [resolveFlatW, h1, h2])

/-- C3 (code behaviour at the failing input): with descriptors `m` and `nn`
whose parent identities `g:m1:1` and `g:m2:1` never occur in the input, the
two synthetic placeholders are adjacent forest roots with empty descriptor
directories; the cleanup loop splices the first but then advances its index
past the second, so the returned forest still contains the rootless root
`g:m2:1` (empty `pomPath`), contradicting the claimed guarantee. -/
theorem c3_rootless_root_survives :
    (buildPrototypePomTree resolveTwoOrphans ["m", "nn"]).map PomTree.pomPath = ["", "."]
    ∧ (buildPrototypePomTree resolveTwoOrphans ["m", "nn"]).map PomTree.pomGav
        = ["g:m2:1", "g:c1:1"]
    ∧ anyNodeList (fun n => n.pomPath == "") (buildPrototypePomTree resolveTwoOrphans ["m", "nn"])
        = true := by
  rw [buildPrototypePomTree]
  rw [show preSweep resolveTwoOrphans ["m", "nn"] =
    [PomTree.mk "g:m1:1" "" "" [PomTree.mk "g:c1:1" "." "g:m1:1" []],
     PomTree.mk "g:m2:1" "" "" [PomTree.mk "g:c2:1" "." "g:m2:1" []]] from rfl]
  rw [sweep_step_splice _ _ (by norm_num) (by decide)]
  rw [show ([PomTree.mk "g:m1:1" "" "" [PomTree.mk "g:c1:1" "." "g:m1:1" []],
     PomTree.mk "g:m2:1" "" "" [PomTree.mk "g:c2:1" "." "g:m2:1" []]].eraseIdx 0 ++
     ([PomTree.mk "g:m1:1" "" "" [PomTree.mk "g:c1:1" "." "g:m1:1" []],
     PomTree.mk "g:m2:1" "" "" [PomTree.mk "g:c2:1" "." "g:m2:1" []]].getD 0 default).children) =
     [PomTree.mk "g:m2:1" "" "" [PomTree.mk "g:c2:1" "." "g:m2:1" []],
      PomTree.mk "g:c1:1" "." "g:m1:1" []] from rfl]
  rw [sweep_step_keep _ _ (by norm_num) (by decide)]
  rw [sweep_done _ _ (by norm_num)]
  refine ⟨by decide, by decide, by decide⟩

/-! ## Dependency attribution filter (`filterParentDependencies`) -/

/-- JS `s.slice(s.search(/\w/))`: the suffix of the character list from its
first word character; with no word character, `search` returns `-1` and
`slice(-1)` keeps just the last character (the empty list stays empty). -/
def sliceFromWordL (cs : List Char) : List Char :=
  match cs.findIdx? wordChar with
  | some i => cs.drop i
  | none => cs.drop (cs.length - 1)

/-- String form of `sliceFromWordL`. -/
def suffixFromWord (s : String) : String := ⟨sliceFromWordL s.data⟩

/-- JS regular-expression line terminators recognised by `^`/`$` with the
`m` flag (the Unicode separators U+2028 and U+2029 are omitted: no input
of this module contains them). -/
def lineTermChar (c : Char) : Bool := c == '\n' || c == '\r'

/-- Split a character list at line terminators (for the multiline anchors). -/
def splitLineTerms : List Char → List Char → List (List Char)
  | [], acc => [acc.reverse]
  | c :: cs, acc =>
      if lineTermChar c then acc.reverse :: splitLineTerms cs []
      else splitLineTerms cs (c :: acc)

/-- One atom of the interpolated pattern: `.` matches any character, every
other character matches itself.  This renders `new RegExp` on a suffix that
contains no regex metacharacter other than `.` — true of the dependency
report lines this filter sees (word characters, `.`, `:`, `-`, spaces). -/
def atomMatches : List Char → List Char → Bool
  | [], _ => true
  | _ :: _, [] => false
  | p :: ps, t :: ts => (p == '.' || p == t) && atomMatches ps ts

/-- Does the atom pattern match starting at some position of the text? -/
def containsAtom (pat : List Char) : List Char → Bool
  | [] => atomMatches pat []
  | c :: cs => atomMatches pat (c :: cs) || containsAtom pat cs

/-- The test `!!rawParentDep.match(new RegExp('^.*' + suffix + '.*$', 'mg'))`:
does the suffix, read as a pattern, match inside some line of the text? -/
def regexLineMatch (pat : String) (text : String) : Bool :=
  (splitLineTerms text.data []).any (fun L => containsAtom pat.data L)

/-- `MavenUtils.filterParentDependencies`: `undefined` (here `none`) when no
parent list is supplied; otherwise keep the child lines whose word-suffix
pattern matches nowhere in the parent's space-joined dependency text. -/
def filterParentDependencies (childDependencies : List String)
    (parentDeps : Option (List String)) : Option (List String) :=
  match parentDeps with
  | some ps =>
      some (childDependencies.filter (fun childDep =>
        !(regexLineMatch (suffixFromWord childDep) (joinSp ps))))
  | none => none

/-- The spec's wording of the filter test: the suffix occurs verbatim as a
whole-line substring of the parent text. -/
def occursAsLineSub (pat : String) (text : String) : Bool :=
  (splitLineTerms text.data []).any (fun L => (subIdx pat.data L).isSome)

/-! ## Identity parser (`getDependencyInfo`, `getProjectInfo`) -/

/-- `MavenUtils.getDependencyInfo`: split the raw report line on `:`, strip
the leading non-word glyphs of field 0, and return fields 0, 1 and the
second-to-last.  Out-of-contract accesses (fewer than two fields) land on the
`getD` defaults where JS would produce `undefined`. -/
def getDependencyInfo (rawDependency : String) : String × String × String :=
  let result := splitOnCharL ':' rawDependency.data
  (⟨sliceFromWordL (result.getD 0 [])⟩,
   ⟨result.getD 1 []⟩,
   ⟨result.getD (result.length - 2) []⟩)

/-- `MavenUtils.getProjectInfo`: strip all whitespace and append a synthetic
scope field, then parse as a dependency line. -/
def getProjectInfo (rawDependency : String) : String × String × String :=
  getDependencyInfo ⟨(rawDependency.data.filter (fun c => !c.isWhitespace)) ++ ":dummyScope".data⟩

theorem atomMatches_of_isPrefixL :
    ∀ (pat t : List Char), isPrefixL pat t = true → atomMatches pat t = true
  | [], _, _ => rfl
  | p :: ps, [], h => by cases h
  | p :: ps, t :: ts, h => by
      rw [isPrefixL, Bool.and_eq_true] at h
      rw [atomMatches, Bool.and_eq_true]
      exact ⟨by rw [h.1]; simp, atomMatches_of_isPrefixL ps ts h.2⟩

theorem containsAtom_of_subIdx (pat : List Char) :
    ∀ L : List Char, (subIdx pat L).isSome = true → containsAtom pat L = true := by
  intro L
  induction L with
  | nil =>
      intro h
      rw [subIdx] at h
      by_cases hpre : isPrefixL pat [] = true
      · rw [containsAtom]
        exact atomMatches_of_isPrefixL pat [] hpre
      · rw [if_neg (by simpa using hpre)] at h
        cases h
  | cons c cs ih =>
      intro h
      rw [subIdx] at h
      by_cases hpre : isPrefixL pat (c :: cs) = true
      · rw [containsAtom, Bool.or_eq_true]
        exact Or.inl (atomMatches_of_isPrefixL pat (c :: cs) hpre)
      · rw [if_neg (by simpa using hpre)] at h
        rw [containsAtom, Bool.or_eq_true]
        cases hs : subIdx pat cs with
        | none => rw [hs] at h; cases h
        | some j => exact Or.inr (ih (by rw [hs]; rfl))

theorem regexLineMatch_of_occurs (pat text : String)
    (h : occursAsLineSub pat text = true) : regexLineMatch pat text = true := by
  rw [occursAsLineSub] at h
  rw [regexLineMatch]
  rw [List.any_eq_true] at h ⊢
  obtain ⟨L, hL, hsub⟩ := h
  exact ⟨L, hL, containsAtom_of_subIdx _ L hsub⟩

/-- C4 (counterexample): exclusion is not "suffix occurs as a whole-line
substring": the suffix is interpolated into the pattern unescaped, so its `.`
matches any character.  Child line `a.b` is excluded against parent text `axb`
even though `a.b` is not a substring of it — the claim predicts retention. -/
theorem c4_counterexample :
    filterParentDependencies ["a.b"] (some ["axb"]) = some []
    ∧ occursAsLineSub (suffixFromWord "a.b") (joinSp ["axb"]) = false := by
  exact ⟨by decide, by decide⟩

/-- C4 (amended): the sentinel `none` is returned exactly on an absent parent
list; with a parent list, a child line is retained iff its word-suffix — read
as a pattern in which `.` matches any character — matches nowhere in the
parent's space-joined text.  A verbatim whole-line substring occurrence always
makes the pattern match, so such lines are excluded as the claim describes;
the scenario lines behave as stated (witness). -/
theorem c4_filter_regex (cs ps : List String) (c : String) (hc : c ∈ cs) :
    filterParentDependencies cs none = none
    ∧ (occursAsLineSub (suffixFromWord c) (joinSp ps) = true →
        c ∉ (filterParentDependencies cs (some ps)).getD [])
    ∧ (c ∈ (filterParentDependencies cs (some ps)).getD [] ↔
        regexLineMatch (suffixFromWord c) (joinSp ps) = false) := by
  refine ⟨rfl, ?_, ?_⟩
  · intro hocc hmem
    rw [filterParentDependencies, Option.getD_some] at hmem
    have hkeep := List.of_mem_filter hmem
    rw [regexLineMatch_of_occurs _ _ hocc] at hkeep
    cases hkeep
  · rw [filterParentDependencies, Option.getD_some, List.mem_filter]
    constructor
    · intro h
      simpa using h.2
    · intro h
      exact ⟨hc, by simpa using h⟩

/-- C4 (witness): scenario C — the child line whose suffix occurs verbatim in
the parent's text is excluded; the child-only line is retained. -/
theorem c4_witness :
    "+- javax.mail:mail:jar:1.4:compile" ∉
      (filterParentDependencies
        ["+- javax.mail:mail:jar:1.4:compile", "+- com.foo:bar:jar:2.0:compile"]
        (some ["+- javax.mail:mail:jar:1.4:compile"])).getD []
    ∧ "+- com.foo:bar:jar:2.0:compile" ∈
      (filterParentDependencies
        ["+- javax.mail:mail:jar:1.4:compile", "+- com.foo:bar:jar:2.0:compile"]
        (some ["+- javax.mail:mail:jar:1.4:compile"])).getD [] :=
  ⟨(c4_filter_regex _ ["+- javax.mail:mail:jar:1.4:compile"] _ (by decide)).2.1 (by decide),
   ((c4_filter_regex _ ["+- javax.mail:mail:jar:1.4:compile"] _ (by decide)).2.2).mpr (by decide)⟩

/-- C5: the attribution filter is idempotent for any present parent context —
every line the first pass keeps passes the same test again. -/
theorem c5_filter_idempotent (cs ps out : List String)
    (h : filterParentDependencies cs (some ps) = some out) :
    filterParentDependencies out (some ps) = some out := by
  rw [filterParentDependencies] at h
  injection h with h
  subst h
  rw [filterParentDependencies]
  congr 1
  rw [List.filter_eq_self]
  intro a ha
  rw [List.mem_filter] at ha
  exact ha.2

/-- C5 (witness): idempotence at a concrete filtered list. -/
theorem c5_witness :
    filterParentDependencies ["+- a:b:jar:1:compile"] (some ["zzz"]) =
      some ["+- a:b:jar:1:compile"] :=
  c5_filter_idempotent ["+- a:b:jar:1:compile"] ["zzz"] ["+- a:b:jar:1:compile"] (by decide)

theorem sliceFromWordL_dropWhile (cs : List Char)
    (hal : cs.any Char.isAlphanum = true)
    (hus : ∀ c ∈ cs.takeWhile (fun c => !c.isAlphanum), ¬ c = '_') :
    sliceFromWordL cs = cs.dropWhile (fun c => !c.isAlphanum) := by
  induction cs with
  | nil => cases hal
  | cons c cs ih =>
      by_cases hc : c.isAlphanum
      · rw [sliceFromWordL, List.findIdx?_cons]
        rw [if_pos (by rw [wordChar, hc]; rfl)]
        rw [List.dropWhile_cons]
        rw [hc]
        rfl
      · have hcu : ¬ c = '_' := by
          apply hus
          rw [List.takeWhile_cons]
          rw [show (!c.isAlphanum) = true from by simp [hc]]
          exact List.mem_cons_self _ _
        have hwc : wordChar c = false := by
          rw [wordChar]
          simp [hc, hcu]
        have hal2 : cs.any Char.isAlphanum = true := by
          rw [List.any_cons] at hal
          rcases Bool.or_eq_true_iff.mp hal with h | h
          · exact absurd h hc
          · exact h
        have hus2 : ∀ x ∈ cs.takeWhile (fun c => !c.isAlphanum), ¬ x = '_' := by
          intro x hx
          apply hus
          rw [List.takeWhile_cons]
          rw [show (!c.isAlphanum) = true from by simp [hc]]
          exact List.mem_cons_of_mem _ hx
        have hrest := ih hal2 hus2
        obtain ⟨x, hxmem, hxal⟩ := List.any_eq_true.mp hal2
        have hsome : (cs.findIdx? wordChar).isSome = true :=
          findIdx?_isSome_of_mem wordChar hxmem (by rw [wordChar, hxal]; rfl)
        cases hj : cs.findIdx? wordChar with
        | none => rw [hj] at hsome; cases hsome
        | some j =>
            rw [sliceFromWordL, List.findIdx?_cons, if_neg (by rw [hwc]; simp),
              List.findIdx?_succ, hj]
            rw [sliceFromWordL, hj] at hrest
            rw [List.dropWhile_cons]
            rw [show (!c.isAlphanum) = true from by simp [hc]]
            simpa using hrest

/-- C8: on a validated report line — at least two `:`-separated fields, the
leading glyphs of field 0 contain no underscore, and field 0 contains an
alphanumeric character — `getDependencyInfo` returns field 0 from its first
alphanumeric character, field 1, and the second-to-last field. -/
theorem c8_parse_fields (raw : String)
    (h2 : 2 ≤ (splitOnCharL ':' raw.data).length)
    (hal : ((splitOnCharL ':' raw.data).getD 0 []).any Char.isAlphanum = true)
    (hus : ∀ c ∈ ((splitOnCharL ':' raw.data).getD 0 []).takeWhile (fun c => !c.isAlphanum),
      ¬ c = '_') :
    getDependencyInfo raw =
      (⟨((splitOnCharL ':' raw.data).getD 0 []).dropWhile (fun c => !c.isAlphanum)⟩,
       ⟨(splitOnCharL ':' raw.data).getD 1 []⟩,
       ⟨(splitOnCharL ':' raw.data).getD ((splitOnCharL ':' raw.data).length - 2) []⟩) := by
  rw [getDependencyInfo]
  rw [sliceFromWordL_dropWhile _ hal hus]

/-- C8 (witness): scenario D. -/
theorem c8_witness :
    getDependencyInfo "|  |  +- javax.mail:mail:jar:1.4:compile" =
      ("javax.mail", "mail", "1.4") := by
  rw [c8_parse_fields "|  |  +- javax.mail:mail:jar:1.4:compile" (by decide) (by decide)
    (by decide)]
  decide

/-! ## Descriptor position locator (`getDependencyPos`) -/

/-- A line/character pair (`vscode.Position`); `character` is an `Int` because
`indexOf` can hand `-1` to the constructor. -/
structure Position where
  line : Nat
  character : Int
deriving DecidableEq

/-- `TextDocument.positionAt`: line = number of line breaks before the offset,
character = characters after the last break (documents of this development use
`\n` breaks). -/
def positionAt (cs : List Char) (offset : Nat) : Position :=
  ⟨(cs.take offset).count '\n',
   (((cs.take offset).reverse.takeWhile (fun c => ¬ c = '\n')).length : Int)⟩

/-- Modelled from the spec: the consuming-tree node classes
(`DependenciesTreeNode` / `MavenTreeNode`, not under `src/`).  A node carries
its component identity `g:a:v`, whether it is a module-root node (a
`MavenTreeNode`), and — for the spec-worded variant — its own descriptor
text.  A node is presented together with its ancestor chain: the head is the
node, the tail is `node.parent`'s chain, and the empty list is the absent
(`undefined`) node. -/
structure DepNodeInfo where
  componentId : String
  isModuleRoot : Bool
  descriptorText : String
deriving DecidableEq

/-- Lower-case `<dependency>` opening tag (12 characters). -/
def openTagL : List Char := "<dependency>".data

/-- Lower-case `</dependency>` closing tag (13 characters). -/
def closeTagL : List Char := "</dependency>".data

/-- The global lazy scan `pomXmlContent.match(/<dependency>(.|\s)*?<\/dependency>/gi)`:
repeatedly find the next case-insensitive `<dependency>`, close it at the
first following `</dependency>`, emit the original text of the span, and
resume after it.  The fuel argument (always at least the text length, each
match consumes at least one character) makes the scan structural. -/
def findBlocksAux : Nat → List Char → List (List Char)
  | 0, _ => []
  | fuel + 1, cs =>
      match subIdx openTagL (lowerL cs) with
      | none => []
      | some i =>
          match subIdx closeTagL (lowerL (cs.drop (i + 12))) with
          | none => []
          | some j =>
              ((cs.drop i).take (12 + j + 13)) ::
                findBlocksAux fuel ((cs.drop (i + 12)).drop (j + 13))

/-- All `<dependency> ... </dependency>` blocks of the text. -/
def findDependencyBlocks (cs : List Char) : List (List Char) :=
  findBlocksAux (cs.length + 1) cs

/-- The destructuring `let [groupId, artifactId, version] = componentId
.toLowerCase().split(':')`; a missing field is JS `undefined`, which the later
string concatenation renders as the text `undefined`. -/
def gavFields (componentId : String) : List Char × List Char × List Char :=
  (((splitOnCharL ':' (lowerL componentId.data)).getD 0 "undefined".data),
   ((splitOnCharL ':' (lowerL componentId.data)).getD 1 "undefined".data),
   ((splitOnCharL ':' (lowerL componentId.data)).getD 2 "undefined".data))

/-- The filtered match `?.filter(group => group.includes(groupId) &&
group.includes(artifactId))` (`includes` is case-sensitive on the original
block text, while the ids are lower-cased). -/
def matchingBlocks (pomXmlContent : String) (componentId : String) : List (List Char) :=
  (findDependencyBlocks pomXmlContent.data).filter
    (fun g => (subIdx (gavFields componentId).1 g).isSome
      && (subIdx (gavFields componentId).2.1 g).isSome)

/-- JS `split(/\r?\n/)`. -/
def splitCRLF : List Char → List Char → List (List Char)
  | [], acc => [acc.reverse]
  | '\r' :: '\n' :: cs, acc => acc.reverse :: splitCRLF cs []
  | '\n' :: cs, acc => acc.reverse :: splitCRLF cs []
  | c :: cs, acc => splitCRLF cs (c :: acc)

/-- JS `arr[i].indexOf('<')` (with `-1` for absent). -/
def charIdxLt (li : List Char) : Int :=
  match subIdx "<".data li with
  | some k => (k : Int)
  | none => -1

/-- `MavenUtils.getDependencyPos`.  The node argument is the consuming-tree
node with its ancestor chain (see `DepNodeInfo`); the recursion
`getDependencyPos(document, dependenciesTreeNode.parent)` — note: the *same*
`document` — is the structural recursion on the chain's tail. -/
def getDependencyPos (document : String) : List DepNodeInfo → List Position
  | [] => []
  | node :: ancestors =>
      match matchingBlocks document node.componentId with
      | block :: _ =>
          (List.range ((splitCRLF block []).filter (fun line => ¬ trimL line = [])).length).foldl
            (fun res i =>
              let li := ((splitCRLF block []).filter (fun line => ¬ trimL line = [])).getD i []
              let depInfo := lowerL (trimL li)
              if depInfo = "<groupid>".data ++ (gavFields node.componentId).1 ++ "</groupid>".data
                ∨ depInfo =
                    "<artifactid>".data ++ (gavFields node.componentId).2.1 ++ "</artifactid>".data
                ∨ depInfo =
                    "<version>".data ++ (gavFields node.componentId).2.2 ++ "</version>".data
              then res ++
                [⟨(positionAt document.data ((subIdx block document.data).getD 0)).line + i,
                  charIdxLt li⟩,
                 ⟨(positionAt document.data ((subIdx block document.data).getD 0)).line + i,
                  (li.length : Int)⟩]
              else res) []
      | [] =>
          if node.isModuleRoot then [] else getDependencyPos document ancestors

/-- Modelled from the spec: the variant that follows the spec's words for the
fallback — "recurse on the node's parent's descriptor text" — instead of the
source's recursion on the same document. -/
def getDependencyPosSpec (document : String) : List DepNodeInfo → List Position
  | [] => []
  | node :: ancestors =>
      match matchingBlocks document node.componentId with
      | block :: _ =>
          (List.range ((splitCRLF block []).filter (fun line => ¬ trimL line = [])).length).foldl
            (fun res i =>
              let li := ((splitCRLF block []).filter (fun line => ¬ trimL line = [])).getD i []
              let depInfo := lowerL (trimL li)
              if depInfo = "<groupid>".data ++ (gavFields node.componentId).1 ++ "</groupid>".data
                ∨ depInfo =
                    "<artifactid>".data ++ (gavFields node.componentId).2.1 ++ "</artifactid>".data
                ∨ depInfo =
                    "<version>".data ++ (gavFields node.componentId).2.2 ++ "</version>".data
              then res ++
                [⟨(positionAt document.data ((subIdx block document.data).getD 0)).line + i,
                  charIdxLt li⟩,
                 ⟨(positionAt document.data ((subIdx block document.data).getD 0)).line + i,
                  (li.length : Int)⟩]
              else res) []
      | [] =>
          if node.isModuleRoot then []
          else
            match ancestors with
            | pnode :: rest => getDependencyPosSpec pnode.descriptorText (pnode :: rest)
            | [] => []

/-- C6 (amended): when no dependency block contains both ids, a non-module-root
node falls back to the recursion `getDependencyPos(document, node.parent)` —
over the *same* document, with the parent's identity — and a module-root node
yields the empty result. -/
theorem c6_parent_fallback (document : String) (node : DepNodeInfo)
    (ancestors : List DepNodeInfo)
    (hnb : matchingBlocks document node.componentId = []) :
    (node.isModuleRoot = false →
      getDependencyPos document (node :: ancestors) = getDependencyPos document ancestors)
    ∧ (node.isModuleRoot = true →
      getDependencyPos document (node :: ancestors) = []) := by
  constructor <;> intro h <;> rw [getDependencyPos, hnb] <;> simp [h]

/-- C6 (witness): a document with no dependency block at all falls through to
the parent for a non-root node. -/
theorem c6_witness :
    getDependencyPos "plain text" [⟨"g:a:1", false, ""⟩, ⟨"g:p:1", true, ""⟩] =
      getDependencyPos "plain text" [⟨"g:p:1", true, ""⟩] :=
  (c6_parent_fallback "plain text" ⟨"g:a:1", false, ""⟩ [⟨"g:p:1", true, ""⟩] (by decide)).1 rfl

/-- C6 (counterexample): the fallback does *not* search the parent's
descriptor text.  The document below declares the parent's dependency; the
child's parent carries an empty descriptor text of its own.  The source
recursion (same document, parent node) finds the declaration, while the
spec-worded variant (parent's descriptor text) finds nothing — so the claim's
description of what is searched is false at this input. -/
theorem c6_counterexample :
    getDependencyPosSpec
        "<dependency>\n<groupId>g</groupId>\n<artifactId>p</artifactId>\n<version>1</version>\n</dependency>"
        [⟨"x:y:9", false, ""⟩, ⟨"g:p:1", true, ""⟩] = []
    ∧ getDependencyPos
        "<dependency>\n<groupId>g</groupId>\n<artifactId>p</artifactId>\n<version>1</version>\n</dependency>"
        [⟨"x:y:9", false, ""⟩, ⟨"g:p:1", true, ""⟩] ≠ []
    ∧ getDependencyPos
        "<dependency>\n<groupId>g</groupId>\n<artifactId>p</artifactId>\n<version>1</version>\n</dependency>"
        [⟨"x:y:9", false, ""⟩, ⟨"g:p:1", true, ""⟩] =
      getDependencyPos
        "<dependency>\n<groupId>g</groupId>\n<artifactId>p</artifactId>\n<version>1</version>\n</dependency>"
        [⟨"g:p:1", true, ""⟩] := by
  refine ⟨by decide, by decide, by decide⟩

/-- C10: an absent (`undefined`) tree node yields the empty position list for
every document, without the document text entering the computation. -/
theorem c10_undefined_node (document document2 : String) :
    getDependencyPos document [] = []
    ∧ getDependencyPos document [] = getDependencyPos document2 [] :=
  ⟨rfl, rfl⟩

/-! ## Descriptor locator (`locatePomXmls`)

`vscode.workspace.findFiles` is the external collaborator: the per-workspace
result lists enter as the parameter.  `Collections.Set` (typescript-collections)
keeps first-occurrence insertion order and deduplicates by path equality.
`localeCompare` is modelled by the lexicographic order on `String` — any total
order with antisymmetry supports the determinism claim the same way. -/

/-- `Collections.Set.add`: insert a path unless already present. -/
def addToSet (s : List String) (x : String) : List String :=
  if x ∈ s then s else s ++ [x]

/-- The comparator `(a, b) => a.fsPath.localeCompare(b.fsPath)` as a sorting
predicate. -/
def pathLe (a b : String) : Bool := decide (a ≤ b)

/-- `MavenUtils.locatePomXmls`: accumulate every per-workspace search result
into the set, then sort the array by the path comparator when it has more
than one element. -/
def locatePomXmls (wsPomXmls : List (List String)) : List String :=
  let result := wsPomXmls.flatten.foldl addToSet []
  if 1 < result.length then result.mergeSort pathLe else result

theorem addToSet_mem (s : List String) (y x : String) :
    x ∈ addToSet s y ↔ x ∈ s ∨ x = y := by
  rw [addToSet]
  by_cases h : y ∈ s
  · rw [if_pos h]
    constructor
    · exact Or.inl
    · rintro (hx | rfl)
      · exact hx
      · exact h
  · rw [if_neg h]
    simp

theorem addToSet_nodup (s : List String) (y : String) (h : s.Nodup) :
    (addToSet s y).Nodup := by
  rw [addToSet]
  by_cases hy : y ∈ s
  · rw [if_pos hy]; exact h
  · rw [if_neg hy]
    rw [List.nodup_append]
    exact ⟨h, List.nodup_singleton y, fun x hx hxy => hy ((List.mem_singleton.mp hxy) ▸ hx)⟩

theorem foldl_addToSet_nodup (l : List String) :
    ∀ acc : List String, acc.Nodup → (l.foldl addToSet acc).Nodup := by
  induction l with
  | nil => intro acc h; exact h
  | cons x xs ih => intro acc h; exact ih _ (addToSet_nodup acc x h)

theorem foldl_addToSet_mem (l : List String) :
    ∀ (acc : List String) (x : String), x ∈ l.foldl addToSet acc ↔ x ∈ acc ∨ x ∈ l := by
  induction l with
  | nil => intro acc x; simp
  | cons y ys ih =>
      intro acc x
      rw [List.foldl_cons, ih, addToSet_mem]
      constructor
      · rintro ((h | rfl) | h)
        · exact Or.inl h
        · exact Or.inr (List.mem_cons_self _ _)
        · exact Or.inr (List.mem_cons_of_mem _ h)
      · rintro (h | h)
        · exact Or.inl (Or.inl h)
        · rcases List.mem_cons.mp h with rfl | h
          · exact Or.inl (Or.inr rfl)
          · exact Or.inr h

theorem pathLe_trans (a b c : String) :
    pathLe a b = true → pathLe b c = true → pathLe a c = true := by
  rw [pathLe, pathLe, pathLe]
  simp only [decide_eq_true_eq]
  exact le_trans

theorem pathLe_total (a b : String) : (pathLe a b || pathLe b a) = true := by
  rw [pathLe, pathLe]
  rcases le_total a b with h | h <;> simp [h]

theorem locatePomXmls_eq_sort (wsPomXmls : List (List String)) :
    locatePomXmls wsPomXmls = (wsPomXmls.flatten.foldl addToSet []).mergeSort pathLe := by
  rw [locatePomXmls]
  by_cases h : 1 < (wsPomXmls.flatten.foldl addToSet []).length
  · rw [if_pos h]
  · rw [if_neg h]
    cases hl : wsPomXmls.flatten.foldl addToSet [] with
    | nil => rw [List.mergeSort_nil]
    | cons a rest =>
        cases rest with
        | nil => rw [List.mergeSort_singleton]
        | cons b rest2 =>
            exfalso
            apply h
            rw [hl]
            simp only [List.length_cons]
            omega

/-- C7: on one filesystem snapshot (same set of discovered paths, in whatever
per-root order), `locatePomXmls` returns one fixed list: deduplicated, sorted
by the path comparator, containing exactly the discovered paths; and the empty
search yields the empty sequence. -/
theorem c7_locate_deterministic (res1 res2 res : List (List String))
    (h : res1.flatten.toFinset = res2.flatten.toFinset) :
    locatePomXmls res1 = locatePomXmls res2
    ∧ (locatePomXmls res).Nodup
    ∧ List.Pairwise (fun a b => pathLe a b = true) (locatePomXmls res)
    ∧ (∀ x, x ∈ locatePomXmls res ↔ x ∈ res.flatten)
    ∧ locatePomXmls [] = [] := by
  have hmemsort : ∀ (r : List (List String)) (x : String),
      x ∈ locatePomXmls r ↔ x ∈ r.flatten := by
    intro r x
    rw [locatePomXmls_eq_sort]
    rw [(List.mergeSort_perm (r.flatten.foldl addToSet []) pathLe).mem_iff]
    rw [foldl_addToSet_mem]
    simp
  have hnodup : ∀ r : List (List String), (locatePomXmls r).Nodup := by
    intro r
    rw [locatePomXmls_eq_sort]
    exact (List.mergeSort_perm _ pathLe).nodup_iff.mpr
      (foldl_addToSet_nodup _ [] List.nodup_nil)
  have hsorted : ∀ r : List (List String),
      List.Pairwise (fun a b => pathLe a b = true) (locatePomXmls r) := by
    intro r
    rw [locatePomXmls_eq_sort]
    exact List.sorted_mergeSort pathLe_trans pathLe_total _
  refine ⟨?_, hnodup res, hsorted res, hmemsort res, rfl⟩
  haveI : IsAntisymm String (fun a b => pathLe a b = true) := by
    constructor
    intro a b hab hba
    rw [pathLe] at hab hba
    simp only [decide_eq_true_eq] at hab hba
    exact le_antisymm hab hba
  have hperm : (locatePomXmls res1).Perm (locatePomXmls res2) := by
    rw [List.perm_ext_iff_of_nodup (hnodup res1) (hnodup res2)]
    intro a
    rw [hmemsort res1, hmemsort res2]
    rw [← List.mem_toFinset, ← List.mem_toFinset, h]
  exact List.eq_of_perm_of_sorted hperm (hsorted res1) (hsorted res2)

/-- C7 (witness): two different search orders of the same snapshot give the
same sorted, deduplicated output. -/
theorem c7_witness :
    locatePomXmls [["w/b/pom.xml", "w/a/pom.xml"]] =
      locatePomXmls [["w/a/pom.xml"], ["w/b/pom.xml", "w/a/pom.xml"]]
    ∧ locatePomXmls [] = [] :=
  ⟨(c7_locate_deterministic [["w/b/pom.xml", "w/a/pom.xml"]]
      [["w/a/pom.xml"], ["w/b/pom.xml", "w/a/pom.xml"]] [] (by decide)).1,
   (c7_locate_deterministic [] [] [] rfl).2.2.2.2⟩

/-! ## GAV resolver (`getPomDetails`)

`ScanUtils.executeCmd` and `JSON.parse` are external: the tool's standard
output enters as a string, and the JSON decoding of one line enters as the
`parse` parameter (`some (pomPath, gav, parentGav)` for a well-formed line,
`none` for a malformed one, on which `JSON.parse` throws).  The `Map` cache
becomes an association list in insertion order; the result carries the cache
that the call leaves behind and whether the external tool was invoked. -/

/-- JS `split(/\r\n|\r|\n/)`. -/
def splitLines3 : List Char → List Char → List String
  | [], acc => [⟨acc.reverse⟩]
  | '\r' :: '\n' :: cs, acc => ⟨acc.reverse⟩ :: splitLines3 cs []
  | '\r' :: cs, acc => ⟨acc.reverse⟩ :: splitLines3 cs []
  | '\n' :: cs, acc => ⟨acc.reverse⟩ :: splitLines3 cs []
  | c :: cs, acc => splitLines3 cs (c :: acc)

/-- JS `replace(/\\/g, '\\\\')`: double every backslash. -/
def escapeBackslashes (s : String) : String :=
  ⟨s.data.foldr (fun c acc => if c = '\\' then '\\' :: '\\' :: acc else c :: acc) []⟩

/-- `Map.get` on the path-keyed GAV cache. -/
def cacheLookup : List (String × String × String) → String → Option (String × String)
  | [], _ => none
  | e :: es, k => if e.1 = k then some e.2 else cacheLookup es k

/-- `Map.set`: update in place or append. -/
def cacheSet : List (String × String × String) → String → String × String →
    List (String × String × String)
  | [], k, v => [(k, v.1, v.2)]
  | e :: es, k, v => if e.1 = k then (k, v.1, v.2) :: es else e :: cacheSet es k v

/-- The line pipeline of `getPomDetails`: split the tool output into lines,
drop empty ones, escape backslashes. -/
def gavLinesOf (out : String) : List String :=
  ((splitLines3 out.data []).filter (fun l => ¬ l = "")).map escapeBackslashes

/-- The `forEach` over the tool's JSON lines: decode each line and store its
entry; a malformed line throws out of the loop (`true` in the flag), keeping
the entries already stored. -/
def processGavLines (parse : String → Option (String × String × String)) :
    List String → List (String × String × String) →
      List (String × String × String) × Bool
  | [], cache => (cache, false)
  | l :: ls, cache =>
      match parse l with
      | some e => processGavLines parse ls (cacheSet cache e.1 (e.2.1, e.2.2))
      | none => (cache, true)

/-- The entries of the well-formed lines that precede the first malformed
line. -/
def goodPrefix (parse : String → Option (String × String × String)) :
    List String → List (String × String × String)
  | [] => []
  | l :: ls =>
      match parse l with
      | some e => e :: goodPrefix parse ls
      | none => []

/-- `MavenUtils.getPomDetails`: answer from the cache when possible; otherwise
run the reader tool, bulk-populate the cache from its output lines, and answer
from the cache (or `('','')` on failure).  Result: the returned pair, the
cache after the call, and whether the tool was invoked. -/
def getPomDetails (parse : String → Option (String × String × String))
    (pathToPomXml : String) (toolOutput : String)
    (pomIdCache : List (String × String × String)) :
    (String × String) × List (String × String × String) × Bool :=
  match cacheLookup pomIdCache pathToPomXml with
  | some gav => (gav, pomIdCache, false)
  | none =>
      match processGavLines parse (gavLinesOf toolOutput) pomIdCache with
      | (cache2, true) => (("", ""), cache2, true)
      | (cache2, false) => ((cacheLookup cache2 pathToPomXml).getD ("", ""), cache2, true)

theorem cacheLookup_cacheSet_self (c : List (String × String × String))
    (k : String) (v : String × String) : cacheLookup (cacheSet c k v) k = some v := by
  induction c with
  | nil => simp [cacheSet, cacheLookup]
  | cons e es ih =>
      rw [cacheSet]
      by_cases h : e.1 = k
      · rw [if_pos h]
        simp [cacheLookup]
      · rw [if_neg h, cacheLookup]
        rw [if_neg h]
        exact ih

theorem cacheLookup_cacheSet_other (c : List (String × String × String))
    (k k2 : String) (v : String × String) (h : ¬ k2 = k) :
    cacheLookup (cacheSet c k v) k2 = cacheLookup c k2 := by
  have hkk : ¬ k = k2 := fun hc => h hc.symm
  induction c with
  | nil =>
      rw [cacheSet, cacheLookup, cacheLookup]
      rw [if_neg (by simpa using hkk)]
      rfl
  | cons e es ih =>
      rw [cacheSet]
      by_cases he : e.1 = k
      · rw [if_pos he, cacheLookup, cacheLookup]
        rw [if_neg (by simpa using hkk), if_neg (by rw [he]; simpa using hkk)]
      · rw [if_neg he, cacheLookup, cacheLookup]
        by_cases hk : e.1 = k2
        · rw [if_pos hk, if_pos hk]
        · rw [if_neg hk, if_neg hk]
          exact ih

theorem processGavLines_preserves (parse : String → Option (String × String × String))
    (ls : List String) :
    ∀ (c : List (String × String × String)) (p : String),
      (cacheLookup c p).isSome = true →
      (cacheLookup (processGavLines parse ls c).1 p).isSome = true := by
  induction ls with
  | nil => intro c p h; exact h
  | cons l ls ih =>
      intro c p h
      rw [processGavLines]
      cases hp : parse l with
      | none => exact h
      | some e =>
          apply ih
          by_cases hpe : p = e.1
          · rw [hpe, cacheLookup_cacheSet_self]
            rfl
          · rw [cacheLookup_cacheSet_other _ _ _ _ hpe]
            exact h

theorem processGavLines_good (parse : String → Option (String × String × String))
    (ls : List String) :
    ∀ (c : List (String × String × String)) (e : String × String × String),
      e ∈ goodPrefix parse ls →
      (cacheLookup (processGavLines parse ls c).1 e.1).isSome = true := by
  induction ls with
  | nil => intro c e h; cases h
  | cons l ls ih =>
      intro c e h
      rw [goodPrefix] at h
      rw [processGavLines]
      cases hp : parse l with
      | none => rw [hp] at h; cases h
      | some e0 =>
          rw [hp] at h
          rcases List.mem_cons.mp h with rfl | h
          · apply processGavLines_preserves
            rw [cacheLookup_cacheSet_self]
            rfl
          · exact ih _ e h

/-- C9: cache population is not atomic on error.  On a cache miss whose tool
output contains a malformed line, the call returns `('','')` (and did invoke
the tool), yet the cache it leaves behind holds an entry for every well-formed
line preceding the failure; any later query for one of those paths is answered
from the cache with the invoked flag `false`. -/
theorem c9_cache_not_atomic (parse : String → Option (String × String × String))
    (path out : String) (cache : List (String × String × String))
    (hmiss : cacheLookup cache path = none)
    (hfail : (processGavLines parse (gavLinesOf out) cache).2 = true) :
    getPomDetails parse path out cache
      = (("", ""), (processGavLines parse (gavLinesOf out) cache).1, true)
    ∧ (∀ e ∈ goodPrefix parse (gavLinesOf out),
        (cacheLookup (processGavLines parse (gavLinesOf out) cache).1 e.1).isSome = true)
    ∧ (∀ (p : String) (v : String × String) (out2 : String)
        (c2 : List (String × String × String)),
        cacheLookup c2 p = some v → getPomDetails parse p out2 c2 = (v, c2, false)) := by
  refine ⟨?_, fun e he => processGavLines_good parse _ cache e he, ?_⟩
  · rw [getPomDetails, hmiss]
    cases hres : processGavLines parse (gavLinesOf out) cache with
    | mk cache2 flag =>
        rw [hres] at hfail
        cases hfail
        rfl
  · intro p v out2 c2 h
    rw [getPomDetails, h]

/-- Concrete line decoder for the C9 witness: the line `ok1` is well formed
(path `p1`), everything else is malformed. -/
def parseW : String → Option (String × String × String) := fun l =>
  if l = "ok1" then some ("p1", "g1", "h1") else none

/-- C9 (witness): output `ok1` then `badline` on an empty cache — the query
for `p0` fails, the entry for `p1` is cached, and a later `p1` query is a
cache hit. -/
theorem c9_witness :
    getPomDetails parseW "p0" "ok1\nbadline" []
      = (("", ""), (processGavLines parseW (gavLinesOf "ok1\nbadline") []).1, true)
    ∧ (∀ e ∈ goodPrefix parseW (gavLinesOf "ok1\nbadline"),
        (cacheLookup (processGavLines parseW (gavLinesOf "ok1\nbadline") []).1 e.1).isSome = true)
    ∧ (∀ (p : String) (v : String × String) (out2 : String)
        (c2 : List (String × String × String)),
        cacheLookup c2 p = some v → getPomDetails parseW p out2 c2 = (v, c2, false)) :=
  c9_cache_not_atomic parseW "p0" "ok1\nbadline" [] (by decide) (by decide)
